import Mathlib

/-!
# Deck of cards (`card.go`, package `deck`)

A shallow embedding of the card library and the properties of its deck builder and options.

Conventions of the embedding:

* `Suit` and `Rank` are Go `uint8`; their values are natural numbers here, and every place where
  the source converts to or increments a `uint8` carries an explicit `% 256`.
* A Go `[]Card` value is a `List Card`.
* A Go `func([]Card) []Card` is a function `List Card → Option (List Card)`; `none` stands for a
  run-time panic (index out of range).
* Go `int` arguments are integers (`Int`); the counting loops stop before their counter can
  overflow, so no wrap-around is involved there.
-/

namespace deck

/-- The struct `Card` with its embedded fields `Suit` and `Rank`, both of a `uint8` type. -/
structure Card where
  Suit : Nat
  Rank : Nat
deriving DecidableEq, Repr

/-! ### Suit constants (`iota` from 0) -/

@[reducible] def Spade : Nat := 0
@[reducible] def Diamond : Nat := 1
@[reducible] def Club : Nat := 2
@[reducible] def Heart : Nat := 3
@[reducible] def Joker : Nat := 4

/-! ### Rank constants (`iota` from 0, the first one skipped) -/

@[reducible] def Ace : Nat := 1
@[reducible] def Two : Nat := 2
@[reducible] def Three : Nat := 3
@[reducible] def Four : Nat := 4
@[reducible] def Five : Nat := 5
@[reducible] def Six : Nat := 6
@[reducible] def Seven : Nat := 7
@[reducible] def Eight : Nat := 8
@[reducible] def Nine : Nat := 9
@[reducible] def Ten : Nat := 10
@[reducible] def Jack : Nat := 11
@[reducible] def Queen : Nat := 12
@[reducible] def King : Nat := 13

@[reducible] def minRank : Nat := Ace
@[reducible] def maxRank : Nat := King

/-- The array `suits = [...]Suit{Spade, Diamond, Club, Heart}`. -/
def suits : List Nat := [Spade, Diamond, Club, Heart]

/-- The inner loop of `New`: `for rank := ...; rank <= maxRank; rank++ { cards = append(...) }`,
entered with the current value of `rank`. The counter is a `uint8`, so `rank++` wraps. -/
def rankLoop (suit rank : Nat) (cards : List Card) : List Card :=
  if _h : rank ≤ maxRank then
    rankLoop suit ((rank + 1) % 256) (cards ++ [{ Suit := suit, Rank := rank }])
  else cards
termination_by maxRank + 1 - rank
decreasing_by
  have h13 : rank ≤ 13 := _h
  show 13 + 1 - (rank + 1) % 256 < 13 + 1 - rank
  omega

/-- The first loop nest of `New`: the deck before any option is applied. -/
def canonical : List Card :=
  suits.foldl (fun cards suit => rankLoop suit minRank cards) []

/-- The second loop of `New`: `for _, opt := range opts { cards = opt(cards) }`. A panic of an
option ends the run. -/
def applyOpts (opts : List (List Card → Option (List Card))) (cards : List Card) :
    Option (List Card) :=
  opts.foldl (fun acc opt => acc.bind opt) (some cards)

/-- The function `New(opts ...func([]Card) []Card) []Card`. -/
def New (opts : List (List Card → Option (List Card))) : Option (List Card) :=
  applyOpts opts canonical

/-- The loop of `Jokers`: `for i := 0; i < n; i++ { cards = append(cards, Card{...}) }`, entered
with the current value of `i`. `Rank(i)` converts the `int` counter to a `uint8`, which keeps
its low eight bits. -/
def jokersLoop (n i : Int) (cards : List Card) : List Card :=
  if i < n then
    jokersLoop n (i + 1) (cards ++ [{ Rank := (i % 256).toNat, Suit := Joker }])
  else cards
termination_by (n - i).toNat
decreasing_by omega

/-- The function `Jokers(n int) func([]Card) []Card`. -/
def Jokers (n : Int) : List Card → Option (List Card) :=
  fun cards => some (jokersLoop n 0 cards)

/-- The function `Filter(f func(card Card) bool) func([]Card) []Card`; the loop over `c` appends
to `ret`, which starts empty, the cards on which `f` is false. -/
def Filter (f : Card → Bool) : List Card → Option (List Card) :=
  fun c => some (c.foldl (fun ret card => if !f card then ret ++ [card] else ret) [])

/-- The loop of `Deck`: `for i := 0; i < n; i++ { ret = append(ret, c...) }`, entered with the
current value of `i`. -/
def deckLoop (n : Int) (c : List Card) (i : Int) (ret : List Card) : List Card :=
  if i < n then deckLoop n c (i + 1) (ret ++ c) else ret
termination_by (n - i).toNat
decreasing_by omega

/-- The function `Deck(n int) func([]Card) []Card`. -/
def Deck (n : Int) : List Card → Option (List Card) :=
  fun c => some (deckLoop n c 0 [])

/-- The function `absRank(c Card) int`: `int(c.Suit)*int(maxRank) + int(c.Rank)`, computed on
`int`, where the value of a card (at most `255*13 + 255`) cannot overflow. -/
def absRank (c : Card) : Int :=
  (c.Suit : Int) * (maxRank : Int) + (c.Rank : Int)

/-- The indexing `cards[i]` with an `int` index: a panic when the index is out of range. -/
def index (cards : List Card) (i : Int) : Option Card :=
  if 0 ≤ i then cards[i.toNat]? else none

/-- The function `Less(cards []Card) func(i, j int) bool`. The closure it returns reads the slice
it was given, so `Less cards i j` is the answer of that closure at a moment when the slice holds
`cards`. -/
def Less (cards : List Card) : Int → Int → Option Bool :=
  fun i j =>
    match index cards i, index cards j with
    | some a, some b => some (decide (absRank a < absRank b))
    | _, _ => none

/-- What the program relies on from the standard library's `sort.Slice(x, less)`, which is not
part of the repository. The sort works in place and calls `less` on positions of the slice as
it stands at that moment, so `less` is given here as a function of the current contents.
If `less` compares the cards at two valid positions by a strict weak order `lt` (irreflexive,
transitive, with transitive incomparability), the sort returns, its result is a rearrangement of
`x`, and no card of the result is `lt` the card just before it. Nothing is promised about the
order of cards that `lt` does not separate. -/
structure SortsSlices
    (sortSlice : List Card → (List Card → Int → Int → Option Bool) → Option (List Card)) :
    Prop where
  sorts : ∀ (x : List Card) (less : List Card → Int → Int → Option Bool)
    (lt : Card → Card → Bool),
    (∀ a, lt a a = false) →
    (∀ a b c, lt a b = true → lt b c = true → lt a c = true) →
    (∀ a b c, lt a b = false → lt b c = false → lt a c = false) →
    (∀ (cur : List Card) (i j : Nat) (hi : i < cur.length) (hj : j < cur.length),
      less cur i j = some (lt (cur.get ⟨i, hi⟩) (cur.get ⟨j, hj⟩))) →
    ∃ r, sortSlice x less = some r ∧ r.Perm x ∧ List.Chain' (fun a b => lt b a = false) r

/-- The function `DefaultSort(cards []Card) []Card`: `sort.Slice(cards, Less(cards))`, then the
sorted slice is returned. The library sort is the parameter `sortSlice`. -/
def DefaultSort
    (sortSlice : List Card → (List Card → Int → Int → Option Bool) → Option (List Card))
    (cards : List Card) : Option (List Card) :=
  sortSlice cards Less

/-- The function `Sort(less func(cards []Card) func(i, j int) bool) func([]Card) []Card`
(`Sort` alone is a reserved word here). -/
def SortWith
    (sortSlice : List Card → (List Card → Int → Int → Option Bool) → Option (List Card))
    (less : List Card → Int → Int → Option Bool) : List Card → Option (List Card) :=
  fun c => sortSlice c less

/-- A sort that meets `SortsSlices`: a merge sort that asks `less` about two cards by putting
them in a two-card slice. -/
def mergeSortSlice (x : List Card) (less : List Card → Int → Int → Option Bool) :
    Option (List Card) :=
  some (x.mergeSort (fun a b => less [a, b] 1 0 != some true))

/-- The loop of `Shuffle`: `for i, j := range perm { ret[i] = cards[j] }`, entered at position
`i` with the rest of `perm`. An index out of range is a panic. -/
def shuffleLoop (cards : List Card) : List Nat → Nat → List Card → Option (List Card)
  | [], _, ret => some ret
  | j :: rest, i, ret =>
    match cards[j]? with
    | none => none
    | some c => if i < ret.length then shuffleLoop cards rest (i + 1) (ret.set i c) else none

/-- The function `Shuffle(cards []Card) []Card`. The method `Perm` of the random source `r`,
seeded from the clock, is the parameter `rPerm`; `make([]Card, len(cards))` is a slice of zero
cards. -/
def Shuffle (rPerm : Nat → List Nat) (cards : List Card) : Option (List Card) :=
  let ret := List.replicate cards.length ({ Suit := 0, Rank := 0 } : Card)
  let perm := rPerm cards.length
  shuffleLoop cards perm 0 ret

/-- The reading of the builder in the specification: the options are applied one after the other,
`ok(...(o2(o1(d)))...)`, to a deck `d` that may already be the result of a panic. -/
def pipeline : List (List Card → Option (List Card)) → Option (List Card) → Option (List Card)
  | [], d => d
  | o :: os, d => pipeline os (d.bind o)

/-- The loop of `Shuffle` on the two slices it touches, the caller's `cards` and the fresh `ret`
that `make` allocated: the statement `ret[i] = cards[j]` writes to `ret` and only reads `cards`.
The state is the pair of the contents of `cards` and of `ret`. -/
def shuffleMemLoop : List Nat → Nat → List Card × List Card → Option (List Card × List Card)
  | [], _, m => some m
  | j :: rest, i, (cards, ret) =>
    match cards[j]? with
    | none => none
    | some c =>
      if i < ret.length then shuffleMemLoop rest (i + 1) (cards, ret.set i c) else none

/-- The function `Shuffle` with its effect on memory: the contents of the caller's slice when it
returns, and the slice it returns. -/
def ShuffleMem (rPerm : Nat → List Nat) (cards : List Card) : Option (List Card × List Card) :=
  let ret := List.replicate cards.length ({ Suit := 0, Rank := 0 } : Card)
  let perm := rPerm cards.length
  shuffleMemLoop perm 0 (cards, ret)

/-! ### The library's `sort.Slice`, up to its first exchange

The functions below follow `sort.Slice` of the Go standard library (the pattern-defeating
quicksort of Go 1.19 and later; it is not part of the repository) from its entry to the first
place where it would rearrange a slice of more than 12 elements. Positions are natural numbers
and are handed to `less` as `int`s. -/

/-- The call `data.Swap(i, j)` of the sort: the two positions exchange their cards; a position
out of range is a panic. -/
def swapAt (cur : List Card) (i j : Nat) : Option (List Card) :=
  match cur[i]?, cur[j]? with
  | some x, some y => some ((cur.set i y).set j x)
  | _, _ => none

/-- The inner loop of the library's `insertionSort`:
`for j := i; j > a && less(j, j-1); j-- { data.Swap(j, j-1) }`, entered with the current `j`. -/
def insertionInner (less : List Card → Int → Int → Option Bool) (a : Nat) :
    Nat → List Card → Option (List Card)
  | 0, cur => some cur
  | j + 1, cur =>
    if a < j + 1 then
      match less cur ((j + 1 : Nat) : Int) ((j : Nat) : Int) with
      | none => none
      | some true =>
        match swapAt cur (j + 1) j with
        | none => none
        | some next => insertionInner less a j next
      | some false => some cur
    else some cur

/-- The outer loop of the library's `insertionSort`: `for i := a + 1; i < b; i++ { ... }`,
entered with the current `i`. -/
def insertionOuter (less : List Card → Int → Int → Option Bool) (a b i : Nat)
    (cur : List Card) : Option (List Card) :=
  if i < b then
    match insertionInner less a i cur with
    | none => none
    | some next => insertionOuter less a b (i + 1) next
  else some cur
termination_by b - i

/-- The library's `insertionSort(data, a, b)`, which sorts `data[a:b]`. -/
def insertionSort (less : List Card → Int → Int → Option Bool) (a b : Nat) (cur : List Card) :
    Option (List Card) :=
  insertionOuter less a b (a + 1) cur

/-- The library's `sortedHint`. -/
inductive sortedHint where
  | unknownHint
  | increasingHint
  | decreasingHint
deriving DecidableEq, Repr

/-- The library's `order2(data, a, b, &swaps)`: the two positions in the order of their cards,
and the count of the exchanges of positions so far. -/
def order2 (less : List Card → Int → Int → Option Bool) (cur : List Card) (a b swaps : Nat) :
    Option (Nat × Nat × Nat) :=
  match less cur (b : Int) (a : Int) with
  | none => none
  | some true => some (b, a, swaps + 1)
  | some false => some (a, b, swaps)

/-- The library's `median(data, a, b, c, &swaps)`: the position of the median of three cards. -/
def median (less : List Card → Int → Int → Option Bool) (cur : List Card) (a b c swaps : Nat) :
    Option (Nat × Nat) :=
  match order2 less cur a b swaps with
  | none => none
  | some (a₁, b₁, s₁) =>
    match order2 less cur b₁ c s₁ with
    | none => none
    | some (b₂, _, s₂) =>
      match order2 less cur a₁ b₂ s₂ with
      | none => none
      | some (_, b₃, s₃) => some (b₃, s₃)

/-- The library's `medianAdjacent(data, a, &swaps)`: the median of `data[a-1]`, `data[a]` and
`data[a+1]`. -/
def medianAdjacent (less : List Card → Int → Int → Option Bool) (cur : List Card)
    (a swaps : Nat) : Option (Nat × Nat) :=
  median less cur (a - 1) a (a + 1) swaps

/-- The `switch swaps` that ends the library's `choosePivot` (`maxSwaps` is `4 * 3`). -/
def hintOf (swaps : Nat) : sortedHint :=
  if swaps = 0 then sortedHint.increasingHint
  else if swaps = 4 * 3 then sortedHint.decreasingHint
  else sortedHint.unknownHint

/-- The library's `choosePivot(data, a, b)`: a pivot position and a hint on whether the slice
looks sorted. It compares cards and exchanges none. -/
def choosePivot (less : List Card → Int → Int → Option Bool) (cur : List Card) (a b : Nat) :
    Option (Nat × sortedHint) :=
  let l := b - a
  let i := a + l / 4 * 1
  let j := a + l / 4 * 2
  let k := a + l / 4 * 3
  if 8 ≤ l then
    let ninther : Option (Nat × Nat × Nat × Nat) :=
      if 50 ≤ l then
        match medianAdjacent less cur i 0 with
        | none => none
        | some (i₁, s₁) =>
          match medianAdjacent less cur j s₁ with
          | none => none
          | some (j₁, s₂) =>
            match medianAdjacent less cur k s₂ with
            | none => none
            | some (k₁, s₃) => some (i₁, j₁, k₁, s₃)
      else some (i, j, k, 0)
    match ninther with
    | none => none
    | some (i₁, j₁, k₁, s) =>
      match median less cur i₁ j₁ k₁ s with
      | none => none
      | some (j₂, s₁) => some (j₂, hintOf s₁)
  else some (j, hintOf 0)

/-- The first scan of the library's `partialInsertionSort(data, a, b)`:
`for i < b && !less(i, i-1) { i++ }`, entered with the current `i`; the result is the position
where the scan stops. -/
def partialInsertionScan (less : List Card → Int → Int → Option Bool) (cur : List Card)
    (b i : Nat) : Option Nat :=
  if i < b then
    match less cur (i : Int) ((i - 1 : Nat) : Int) with
    | none => none
    | some true => some i
    | some false => partialInsertionScan less cur b (i + 1)
  else some i
termination_by b - i

/-- The first round of the library's `pdqsort(data, a, b, limit)`, where `wasBalanced` and
`wasPartitioned` are still true. A slice of at most 12 elements is sorted by `insertionSort`. On
a longer one, when `choosePivot` gives the increasing hint and the first scan of
`partialInsertionSort` reaches `b`, the slice is returned as it is. The parameter `rest` stands
for the remainder of the run from the places where this model stops: the heap sort when `limit`
is 0, the reversal of a descending slice, the shifting rounds of `partialInsertionSort`, and the
partitioning with its recursive calls. At each of these places nothing has been exchanged yet,
so the remainder is a function of the slice as it was given and of `less`. -/
def pdqsort (rest : List Card → (List Card → Int → Int → Option Bool) → Option (List Card))
    (less : List Card → Int → Int → Option Bool) (cur : List Card) (a b limit : Nat) :
    Option (List Card) :=
  if b - a ≤ 12 then insertionSort less a b cur
  else if limit = 0 then rest cur less
  else
    match choosePivot less cur a b with
    | none => none
    | some (_, hint) =>
      if hint = sortedHint.increasingHint then
        match partialInsertionScan less cur b (a + 1) with
        | none => none
        | some i => if i = b then some cur else rest cur less
      else rest cur less

/-- The library's `sort.Slice(x, less)`: `pdqsort` on the whole slice, with the limit
`bits.Len(uint(length))`. -/
def Slice (rest : List Card → (List Card → Int → Int → Option Bool) → Option (List Card))
    (x : List Card) (less : List Card → Int → Int → Option Bool) : Option (List Card) :=
  pdqsort rest less x 0 x.length (Nat.size x.length)

/-- A deck is ascending when the `absRank` never decreases from one position to the next. -/
def Ascending (d : List Card) : Prop :=
  List.Chain' (fun a b => absRank a ≤ absRank b) d

/-- Modelled from the spec: the method `Suit.String()`, which the `stringer` tool generates and
which is not in the sources. The names are the table of the specification (Spade, Diamond, Club,
Heart, Joker); the rendering of a value outside the table, on which the specification is silent,
is the parameter `unnamed`. -/
def SuitString (unnamed : Nat → String) : Nat → String
  | 0 => "Spade"
  | 1 => "Diamond"
  | 2 => "Club"
  | 3 => "Heart"
  | 4 => "Joker"
  | n => unnamed n

/-- Modelled from the spec: the method `Rank.String()`, which the `stringer` tool generates and
which is not in the sources. The names are the table of the specification (Ace, Two, ..., King
for 1..13); the rendering of a value outside the table, on which the specification is silent, is
the parameter `unnamed`. -/
def RankString (unnamed : Nat → String) : Nat → String
  | 1 => "Ace"
  | 2 => "Two"
  | 3 => "Three"
  | 4 => "Four"
  | 5 => "Five"
  | 6 => "Six"
  | 7 => "Seven"
  | 8 => "Eight"
  | 9 => "Nine"
  | 10 => "Ten"
  | 11 => "Jack"
  | 12 => "Queen"
  | 13 => "King"
  | n => unnamed n

/-- The method `func (c Card) String() string`; `fmt.Sprintf("%s of %ss", r, s)` is the
concatenation of `r`, `" of "`, `s` and `"s"`. -/
def Card.String (unnamedSuit unnamedRank : Nat → String) (c : Card) : String :=
  if c.Suit = Joker then SuitString unnamedSuit c.Suit
  else RankString unnamedRank c.Rank ++ " of " ++ SuitString unnamedSuit c.Suit ++ "s"

/-- The names of the suits in the specification, in the order of their values. -/
def suitNames : List String := ["Spade", "Diamond", "Club", "Heart", "Joker"]

/-- The names of the ranks in the specification, from Ace (1) to King (13). -/
def rankNames : List String :=
  ["Ace", "Two", "Three", "Four", "Five", "Six", "Seven", "Eight", "Nine", "Ten", "Jack",
    "Queen", "King"]

/-- The invariant of built decks: every card that is not a joker has one of the four suits and a
rank from Ace to King. -/
def WellFormed (d : List Card) : Prop :=
  ∀ c ∈ d, c.Suit ≠ Joker →
    c.Suit ∈ [Spade, Diamond, Club, Heart] ∧ Ace ≤ c.Rank ∧ c.Rank ≤ King

/-- The options of the library that `New` can be given: `Shuffle` (with a random source whose
`Perm(n)` is a permutation of `0..n-1`), `DefaultSort`, `Jokers(n)`, `Filter(f)` and `Deck(n)`. -/
inductive LibraryOption
    (sortSlice : List Card → (List Card → Int → Int → Option Bool) → Option (List Card)) :
    (List Card → Option (List Card)) → Prop
  | shuffle (rPerm : Nat → List Nat) (h : ∀ n, (rPerm n).Perm (List.range n)) :
      LibraryOption sortSlice (Shuffle rPerm)
  | defaultSort : LibraryOption sortSlice (DefaultSort sortSlice)
  | jokers (n : Int) : LibraryOption sortSlice (Jokers n)
  | filter (f : Card → Bool) : LibraryOption sortSlice (Filter f)
  | deck (n : Int) : LibraryOption sortSlice (Deck n)


/-! ## The canonical deck -/

theorem rankLoop_minRank (suit : Nat) (cards : List Card) :
    rankLoop suit minRank cards
      = cards ++ (List.range 13).map (fun r => { Suit := suit, Rank := r + 1 }) := by
  simp [rankLoop, minRank, maxRank, Ace, King, List.range, List.range.loop]


theorem canonical_eq :
    canonical = (List.range 4).flatMap
      (fun s => (List.range 13).map (fun r => { Suit := s, Rank := r + 1 })) := by
  simp [canonical, suits, rankLoop_minRank, Spade, Diamond, Club, Heart, List.range,
    List.range.loop, List.flatMap]

theorem canonical_length : canonical.length = 52 := by
  rw [canonical_eq]; rfl

theorem canonical_getElem? (s r : Nat) (hs : s < 4) (hr : r < 13) :
    canonical[13 * s + r]? = some { Suit := s, Rank := r + 1 } := by
  rw [canonical_eq]
  interval_cases s <;> interval_cases r <;> rfl

theorem New_nil : New [] = some canonical := rfl

theorem applyOpts_eq_pipeline (opts : List (List Card → Option (List Card)))
    (d : Option (List Card)) :
    opts.foldl (fun acc opt => acc.bind opt) d = pipeline opts d := by
  induction opts generalizing d with
  | nil => rfl
  | cons o os ih => simpa [pipeline] using ih (d.bind o)

/-- C1: `New()` without options returns 52 cards; every pair of a suit among Spade, Diamond,
Club, Heart and a rank from Ace to King occurs exactly once in it, and every card of it is such
a pair. -/
theorem New_no_options_standard_deck :
    ∃ d, New [] = some d ∧ d.length = 52 ∧
      (∀ s ∈ [Spade, Diamond, Club, Heart], ∀ r, Ace ≤ r → r ≤ King →
        d.count { Suit := s, Rank := r } = 1) ∧
      (∀ c ∈ d, c.Suit ∈ [Spade, Diamond, Club, Heart] ∧ Ace ≤ c.Rank ∧ c.Rank ≤ King) := by
  refine ⟨canonical, New_nil, canonical_length, ?_, ?_⟩
  · intro s hs r h1 h13
    simp only [Ace, King] at h1 h13
    rw [canonical_eq]
    simp only [Spade, Diamond, Club, Heart, List.mem_cons, List.mem_singleton,
      List.not_mem_nil, or_false] at hs
    rcases hs with rfl | rfl | rfl | rfl <;> interval_cases r <;> decide
  · rw [canonical_eq]
    decide

/-- C2: the deck of `New()` is ordered by suit, then by ascending rank: the card at position
`13 * s + (r - 1)` is the card of suit `s` and rank `r`, for `s` in 0..3 and `r` in 1..13. -/
theorem New_suit_major_order (s r : Nat) (hs : s < 4) (h1 : 1 ≤ r) (h13 : r ≤ 13) :
    ∃ d, New [] = some d ∧ d[13 * s + (r - 1)]? = some { Suit := s, Rank := r } := by
  refine ⟨canonical, New_nil, ?_⟩
  have h := canonical_getElem? s (r - 1) hs (by omega)
  rw [h]
  congr 2
  omega

theorem New_suit_major_order_witness :
    ∃ d, New [] = some d ∧ d[13 * 2 + (12 - 1)]? = some { Suit := Club, Rank := Queen } :=
  New_suit_major_order 2 12 (by decide) (by decide) (by decide)

/-- C3: `New(o1, ..., ok)` is `ok(...(o2(o1(New())))...)`, the options applied from left to
right to the canonical deck; adding an option `o` at the end applies `o` to the result of the
options before it, and without options the canonical deck comes back as it is. -/
theorem New_applies_options_in_order (opts : List (List Card → Option (List Card)))
    (o : List Card → Option (List Card)) :
    New opts = pipeline opts (New []) ∧
    New (opts ++ [o]) = (New opts).bind o ∧
    New [] = some canonical := by
  refine ⟨?_, ?_, rfl⟩
  · exact applyOpts_eq_pipeline opts (some canonical)
  · simp [New, applyOpts, List.foldl_append]


/-! ## The options `Filter`, `Deck` and `Jokers` -/

theorem filter_loop (f : Card → Bool) (c ret : List Card) :
    c.foldl (fun ret card => if !f card then ret ++ [card] else ret) ret
      = ret ++ c.filter (fun x => !f x) := by
  induction c generalizing ret with
  | nil => simp
  | cons x xs ih =>
    rw [List.foldl_cons, ih]
    cases hx : f x <;> simp [List.filter_cons, hx]

theorem Filter_eq (f : Card → Bool) (c : List Card) :
    Filter f c = some (c.filter (fun x => !f x)) := by
  unfold Filter
  rw [filter_loop, List.nil_append]

theorem deckLoop_eq (k : Nat) (n : Int) (c : List Card) (i : Int) (ret : List Card)
    (hk : (n - i).toNat = k) :
    deckLoop n c i ret = ret ++ (List.replicate k c).flatten := by
  induction k generalizing i ret with
  | zero =>
    rw [deckLoop, if_neg (by omega)]
    simp
  | succ k ih =>
    rw [deckLoop, if_pos (by omega), ih (i + 1) (ret ++ c) (by omega)]
    simp [List.replicate_succ]

theorem Deck_eq (n : Int) (c : List Card) :
    Deck n c = some (List.replicate n.toNat c).flatten := by
  simp [Deck, deckLoop_eq n.toNat n c 0 [] (by simp)]

theorem jokersLoop_eq (k : Nat) (n i : Int) (cards : List Card) (hk : (n - i).toNat = k) :
    jokersLoop n i cards
      = cards ++ (List.range k).map
          (fun j => { Suit := Joker, Rank := ((i + j) % 256).toNat }) := by
  induction k generalizing i cards with
  | zero =>
    rw [jokersLoop, if_neg (by omega)]
    simp
  | succ k ih =>
    rw [jokersLoop, if_pos (by omega), ih (i + 1) _ (by omega), List.range_succ_eq_map]
    simp only [List.map_cons, List.map_map, Function.comp_def, List.append_assoc,
      List.singleton_append, Nat.cast_zero, add_zero, Nat.cast_succ]
    congr 3
    funext j
    congr 3
    omega

theorem Jokers_eq (n : Nat) (cards : List Card) :
    Jokers n cards
      = some (cards ++ (List.range n).map (fun j => { Suit := Joker, Rank := j % 256 })) := by
  have h := jokersLoop_eq n n 0 cards (by simp)
  simp only [Jokers, h, zero_add]
  congr 3


/-- C4: `Filter(f)(c)` is the subsequence of `c` of the cards on which `f` is false, in their
original order: nothing is added and exactly the cards on which `f` is true are removed. With
`f` the test for the suit Heart, `New(Filter(f))` has 39 cards, none of them a Heart, in the
order they have in the canonical deck. -/
theorem Filter_removes_matching_cards (f : Card → Bool) (c : List Card) :
    (∃ r, Filter f c = some r ∧ r = c.filter (fun x => !f x) ∧ r.Sublist c ∧
      (∀ x, x ∈ r ↔ x ∈ c ∧ f x = false)) ∧
    (∃ d, New [Filter (fun card => card.Suit == Heart)] = some d ∧ d.length = 39 ∧
      (∀ x ∈ d, x.Suit ≠ Heart) ∧ d.Sublist canonical) := by
  constructor
  · refine ⟨_, Filter_eq f c, rfl, List.filter_sublist c, ?_⟩
    intro x
    simp [List.mem_filter]
  · refine ⟨canonical.filter (fun x => !(x.Suit == Heart)), ?_, ?_, ?_, List.filter_sublist _⟩
    · simp [New, applyOpts, Filter_eq]
    · rw [canonical_eq]; decide
    · rw [canonical_eq]; decide

/-- C5: for `n ≥ 0`, `Deck(n)(c)` is `n` copies of `c` laid out one after the other, so it has
`n * len(c)` cards; `Deck(0)(c)` is empty and `Deck(1)(c)` is `c`; `New(Deck(3))` is three
copies of the canonical deck, 156 cards. -/
theorem Deck_concatenates_copies (n : Nat) (c : List Card) :
    (∃ r, Deck n c = some r ∧ r = (List.replicate n c).flatten ∧ r.length = n * c.length) ∧
    Deck 0 c = some [] ∧ Deck 1 c = some c ∧
    (∃ d, New [Deck 3] = some d ∧ d = canonical ++ canonical ++ canonical ∧ d.length = 156) := by
  refine ⟨⟨_, Deck_eq n c, by simp, by simp⟩, by simp [Deck_eq], by simp [Deck_eq], ?_⟩
  refine ⟨canonical ++ canonical ++ canonical, ?_, rfl, by simp [canonical_length]⟩
  simp [New, applyOpts, Deck_eq, List.replicate]

/-- C6: for `n ≥ 0`, `Jokers(n)(c)` has `len(c) + n` cards, its first `len(c)` cards are `c` in
the same order, and each of its last `n` cards has the suit Joker. -/
theorem Jokers_appends_jokers (n : Nat) (c : List Card) :
    ∃ r, Jokers n c = some r ∧ r.length = c.length + n ∧ r.take c.length = c ∧
      (r.drop c.length).length = n ∧ (∀ x ∈ r.drop c.length, x.Suit = Joker) := by
  refine ⟨_, Jokers_eq n c, by simp, by simp, by simp, ?_⟩
  intro x hx
  simp only [List.drop_left, List.mem_map] at hx
  obtain ⟨j, _, rfl⟩ := hx
  rfl


theorem Jokers_getElem? (n : Nat) (c : List Card) (i : Nat) (hi : i < n) :
    (c ++ (List.range n).map (fun j => ({ Suit := Joker, Rank := j % 256 } : Card)))[c.length + i]?
      = some { Suit := Joker, Rank := i % 256 } := by
  rw [List.getElem?_append_right (by omega)]
  simp [List.getElem?_range hi]

/-- C7, as it is written, fails: the joker appended by `Jokers(257)` at position 256 has the
`Rank` 0, not 256, the same `Rank` as the joker at position 0. -/
theorem Jokers_rank_wraps_at_256 :
    ∃ r, Jokers 257 [] = some r ∧ r[256]? = some { Suit := Joker, Rank := 0 } ∧
      r[0]? = some { Suit := Joker, Rank := 0 } ∧
      r[256]?.map Card.Rank ≠ some 256 := by
  have h256 : ([] ++ (List.range 257).map
      (fun j => ({ Suit := Joker, Rank := j % 256 } : Card)))[256]?
      = some { Suit := Joker, Rank := 0 } := Jokers_getElem? 257 [] 256 (by decide)
  refine ⟨_, Jokers_eq 257 [], h256, Jokers_getElem? 257 [] 0 (by decide), ?_⟩
  rw [h256]
  decide

/-- C7, amended: for `n ≥ 0` and `i < n`, the card of `Jokers(n)(c)` at position `len(c) + i` is
the joker of `Rank` `i mod 256`; its `Rank` is `i` when `i < 256`, and two appended jokers at
different positions below 256 have different `Rank`s. -/
theorem Jokers_rank_is_index_mod_256 (n : Nat) (c : List Card) (i : Nat) (hi : i < n) :
    ∃ r, Jokers n c = some r ∧
      r[c.length + i]? = some { Suit := Joker, Rank := i % 256 } ∧
      (i < 256 → r[c.length + i]?.map Card.Rank = some i) ∧
      (∀ j, j < n → i < 256 → j < 256 → i ≠ j →
        r[c.length + i]?.map Card.Rank ≠ r[c.length + j]?.map Card.Rank) := by
  refine ⟨_, Jokers_eq n c, Jokers_getElem? n c i hi, ?_, ?_⟩
  · intro h
    rw [Jokers_getElem? n c i hi]
    simp [Nat.mod_eq_of_lt h]
  · intro j hj h h2 hne
    rw [Jokers_getElem? n c i hi, Jokers_getElem? n c j hj]
    simp [Nat.mod_eq_of_lt h, Nat.mod_eq_of_lt h2, hne]

theorem Jokers_rank_is_index_mod_256_witness :
    ∃ r, Jokers (300 : Nat) [{ Suit := Spade, Rank := Ace }] = some r ∧
      r[[({ Suit := Spade, Rank := Ace } : Card)].length + 299]?
        = some { Suit := Joker, Rank := 299 % 256 } ∧
      (299 < 256 → r[[({ Suit := Spade, Rank := Ace } : Card)].length + 299]?.map Card.Rank
        = some 299) ∧
      (∀ j, j < 300 → 299 < 256 → j < 256 → 299 ≠ j →
        r[[({ Suit := Spade, Rank := Ace } : Card)].length + 299]?.map Card.Rank
          ≠ r[[({ Suit := Spade, Rank := Ace } : Card)].length + j]?.map Card.Rank) :=
  Jokers_rank_is_index_mod_256 300 [{ Suit := Spade, Rank := Ace }] 299 (by decide)

/-- C8: `New(Jokers(3))` has 55 cards: the canonical deck in its order, then the jokers of
`Rank` 0, 1 and 2. -/
theorem New_Jokers_three :
    ∃ d, New [Jokers 3] = some d ∧ d.length = 55 ∧ d.take 52 = canonical ∧
      d.drop 52 = [{ Suit := Joker, Rank := 0 }, { Suit := Joker, Rank := 1 },
        { Suit := Joker, Rank := 2 }] := by
  have h : New [Jokers 3] = some (canonical ++
      [{ Suit := Joker, Rank := 0 }, { Suit := Joker, Rank := 1 },
        { Suit := Joker, Rank := 2 }]) := by
    have h3 := Jokers_eq 3 canonical
    simp only [Nat.cast_ofNat] at h3
    simp only [New, applyOpts, List.foldl_cons, List.foldl_nil, Option.some_bind, h3]
    rfl
  refine ⟨_, h, by simp [canonical_length], ?_, ?_⟩
  · rw [← canonical_length, List.take_left]
  · rw [← canonical_length, List.drop_left]


/-! ## Sorting -/

theorem index_natCast (cards : List Card) (i : Nat) : index cards (i : Int) = cards[i]? := by
  simp [index]

theorem Less_valid (cur : List Card) (i j : Nat) (hi : i < cur.length) (hj : j < cur.length) :
    Less cur i j
      = some (decide (absRank (cur.get ⟨i, hi⟩) < absRank (cur.get ⟨j, hj⟩))) := by
  simp [Less, index_natCast, List.getElem?_eq_getElem hi, List.getElem?_eq_getElem hj]

theorem mergeSortSlice_sorts : SortsSlices mergeSortSlice := by
  constructor
  intro x less lt hirr htr hinc hless
  have hle : (fun a b => less [a, b] 1 0 != some true) = fun a b => !lt b a := by
    funext a b
    have h := hless [a, b] 1 0 (by simp) (by simp)
    simp only [Nat.cast_one, Nat.cast_zero] at h
    rw [h]
    simp only [List.get_eq_getElem, List.getElem_cons_succ, List.getElem_cons_zero]
    cases lt b a <;> rfl
  refine ⟨_, rfl, ?_, ?_⟩
  · exact List.mergeSort_perm _ _
  · apply List.Pairwise.chain'
    rw [hle]
    have hs := @List.sorted_mergeSort Card (fun a b => !lt b a)
      (fun a b c hab hbc => by
        simp only [Bool.not_eq_true', Bool.not_eq_true] at hab hbc ⊢
        exact hinc c b a hbc hab)
      (fun a b => by
        cases hba : lt b a
        · simp [hba]
        · cases hab : lt a b
          · simp [hab]
          · exact absurd (htr a b a hab hba) (by simp [hirr a])) x
    exact hs.imp (fun h => by simpa using h)


theorem absRank_eq (c : Card) : absRank c = (c.Suit : Int) * 13 + (c.Rank : Int) := rfl

theorem DefaultSort_spec
    (sortSlice : List Card → (List Card → Int → Int → Option Bool) → Option (List Card))
    (hlib : SortsSlices sortSlice) (c : List Card) :
    ∃ r, DefaultSort sortSlice c = some r ∧ r.Perm c ∧
      List.Chain' (fun a b => absRank a ≤ absRank b) r := by
  obtain ⟨r, hr, hperm, hchain⟩ := hlib.sorts c Less
    (fun a b => decide (absRank a < absRank b))
    (fun a => by simp)
    (fun a b c hab hbc => by
      simp only [decide_eq_true_eq] at hab hbc ⊢
      omega)
    (fun a b c hab hbc => by
      simp only [decide_eq_false_iff_not] at hab hbc ⊢
      omega)
    Less_valid
  refine ⟨r, hr, hperm, hchain.imp ?_⟩
  intro a b h
  simp only [decide_eq_false_iff_not] at h
  omega

/-- C9: `DefaultSort(c)` is a rearrangement of `c` (same cards with the same multiplicities, same
length) in which the `absRank` never decreases from one position to the next. The library's
`sort.Slice` is any sort that meets `SortsSlices`. -/
theorem DefaultSort_sorted_permutation
    (sortSlice : List Card → (List Card → Int → Int → Option Bool) → Option (List Card))
    (hlib : SortsSlices sortSlice) (c : List Card) :
    ∃ r, DefaultSort sortSlice c = some r ∧ r.Perm c ∧ r.length = c.length ∧
      (∀ x, r.count x = c.count x) ∧
      ∀ (i : Nat) (h : i + 1 < r.length),
        absRank (r.get ⟨i, by omega⟩) ≤ absRank (r.get ⟨i + 1, h⟩) := by
  obtain ⟨r, hr, hperm, hchain⟩ := DefaultSort_spec sortSlice hlib c
  refine ⟨r, hr, hperm, hperm.length_eq, fun x => hperm.count_eq x, ?_⟩
  intro i h
  exact List.chain'_iff_get.mp hchain i (by omega)

theorem DefaultSort_sorted_permutation_witness :
    ∃ r, DefaultSort mergeSortSlice
        [{ Suit := Joker, Rank := 0 }, { Suit := Heart, Rank := King },
          { Suit := Spade, Rank := Two }, { Suit := Heart, Rank := King }] = some r ∧
      r.Perm [{ Suit := Joker, Rank := 0 }, { Suit := Heart, Rank := King },
          { Suit := Spade, Rank := Two }, { Suit := Heart, Rank := King }] ∧
      r.length = [({ Suit := Joker, Rank := 0 } : Card), { Suit := Heart, Rank := King },
          { Suit := Spade, Rank := Two }, { Suit := Heart, Rank := King }].length ∧
      (∀ x, r.count x = [({ Suit := Joker, Rank := 0 } : Card), { Suit := Heart, Rank := King },
          { Suit := Spade, Rank := Two }, { Suit := Heart, Rank := King }].count x) ∧
      ∀ (i : Nat) (h : i + 1 < r.length),
        absRank (r.get ⟨i, by omega⟩) ≤ absRank (r.get ⟨i + 1, h⟩) :=
  DefaultSort_sorted_permutation mergeSortSlice mergeSortSlice_sorts _


/-! ## Shuffling, and sorting a shuffled deck -/

theorem shuffleLoop_eq (cards : List Card) (perm : List Nat) (pre mid post : List Card)
    (hperm : ∀ j ∈ perm, j < cards.length) (hmid : mid.length = perm.length) :
    shuffleLoop cards perm pre.length (pre ++ mid ++ post)
      = some (pre ++ perm.map (fun j => cards.getD j { Suit := 0, Rank := 0 }) ++ post) := by
  induction perm generalizing pre mid with
  | nil =>
    cases mid with
    | nil => simp [shuffleLoop]
    | cons m ms => simp at hmid
  | cons j rest ih =>
    cases mid with
    | nil => simp at hmid
    | cons m ms =>
      have hj : j < cards.length := hperm j (List.mem_cons_self _ _)
      have hlen : pre.length < (pre ++ m :: ms ++ post).length := by simp
      have hset : (pre ++ m :: ms ++ post).set pre.length cards[j]
          = (pre ++ [cards[j]]) ++ ms ++ post := by
        rw [List.append_assoc, List.set_append_right _ _ (Nat.le_refl _)]
        simp
      have h := ih (pre ++ [cards[j]]) ms (fun k hk => hperm k (List.mem_cons_of_mem _ hk))
        (by simpa using hmid)
      simp only [List.length_append, List.length_singleton] at h
      simp only [shuffleLoop, List.getElem?_eq_getElem hj, if_pos hlen, hset, h]
      simp [List.getD_eq_getElem?_getD, List.getElem?_eq_getElem hj]

theorem map_getD_range (cards : List Card) (d : Card) :
    (List.range cards.length).map (fun j => cards.getD j d) = cards := by
  apply List.ext_getElem
  · simp
  · intro i h1 h2
    simp [List.getD_eq_getElem?_getD, List.getElem?_eq_getElem h2]

theorem Shuffle_eq (rPerm : Nat → List Nat) (cards : List Card)
    (hp : (rPerm cards.length).Perm (List.range cards.length)) :
    Shuffle rPerm cards
      = some ((rPerm cards.length).map (fun j => cards.getD j { Suit := 0, Rank := 0 })) := by
  have h := shuffleLoop_eq cards (rPerm cards.length) []
    (List.replicate cards.length { Suit := 0, Rank := 0 }) []
    (fun j hj => by simpa using hp.mem_iff.mp hj)
    (by simp [hp.length_eq])
  simpa [Shuffle] using h

theorem Shuffle_perm (rPerm : Nat → List Nat) (cards : List Card)
    (hp : (rPerm cards.length).Perm (List.range cards.length)) :
    ((rPerm cards.length).map (fun j => cards.getD j { Suit := 0, Rank := 0 })).Perm cards := by
  have h := hp.map (fun j => cards.getD j { Suit := 0, Rank := 0 })
  rwa [map_getD_range] at h


theorem canonical_map_absRank :
    canonical.map absRank = (List.range 52).map (fun i => (i : Int) + 1) := by
  rw [canonical_eq]; decide

theorem canonical_mem_bounds (a : Card) (ha : a ∈ canonical) :
    a.Suit < 4 ∧ 1 ≤ a.Rank ∧ a.Rank ≤ 13 := by
  have h : ∀ c ∈ canonical, c.Suit < 4 ∧ 1 ≤ c.Rank ∧ c.Rank ≤ 13 := by
    rw [canonical_eq]; decide
  exact h a ha

theorem absRank_inj_canonical (a b : Card) (ha : a ∈ canonical) (hb : b ∈ canonical)
    (h : absRank a = absRank b) : a = b := by
  have h1 := canonical_mem_bounds a ha
  have h2 := canonical_mem_bounds b hb
  rw [absRank_eq, absRank_eq] at h
  cases a with
  | mk s1 r1 =>
    cases b with
    | mk s2 r2 =>
      simp only at h h1 h2
      have hs : s1 = s2 := by omega
      have hr : r1 = r2 := by omega
      rw [hs, hr]

theorem eq_of_map_eq_of_injOn {f : Card → Int} :
    ∀ (l₁ l₂ : List Card), l₁.map f = l₂.map f →
      (∀ a ∈ l₁, ∀ b ∈ l₂, f a = f b → a = b) → l₁ = l₂
  | [], [], _, _ => rfl
  | [], _ :: _, h, _ => by simp at h
  | _ :: _, [], h, _ => by simp at h
  | a :: as, b :: bs, h, hinj => by
    simp only [List.map_cons, List.cons.injEq] at h
    have hab : a = b := hinj a (List.mem_cons_self _ _) b (List.mem_cons_self _ _) h.1
    have htl := eq_of_map_eq_of_injOn as bs h.2
      (fun x hx y hy => hinj x (List.mem_cons_of_mem _ hx) y (List.mem_cons_of_mem _ hy))
    rw [hab, htl]

theorem sorted_perm_canonical (r : List Card) (hperm : r.Perm canonical)
    (hchain : List.Chain' (fun a b => absRank a ≤ absRank b) r) : r = canonical := by
  have hr : (r.map absRank).Sorted (· ≤ ·) := by
    have hp : r.Pairwise (fun a b => absRank a ≤ absRank b) := by
      haveI : IsTrans Card (fun a b => absRank a ≤ absRank b) :=
        ⟨fun _ _ _ h1 h2 => le_trans h1 h2⟩
      exact List.chain'_iff_pairwise.mp hchain
    exact List.pairwise_map.mpr hp
  have hc : (canonical.map absRank).Sorted (· ≤ ·) := by
    rw [canonical_map_absRank]
    decide
  have hmap : r.map absRank = canonical.map absRank :=
    List.eq_of_perm_of_sorted (hperm.map absRank) hr hc
  exact eq_of_map_eq_of_injOn r canonical hmap
    (fun a ha b hb => absRank_inj_canonical a b (hperm.mem_iff.mp ha) hb)


/-- C10: `DefaultSort` undoes `Shuffle` on the canonical deck. Whatever permutation of the 52
positions the random source draws, the shuffled deck holds at position `i` the card of `New()`
at position `perm[i]`, and `DefaultSort` of it is `New()` again, whose `absRank` never decreases
from one position to the next; so `New(Shuffle, DefaultSort)` is `New()`. The library's
`sort.Slice` is any sort that meets `SortsSlices`. -/
theorem DefaultSort_undoes_Shuffle
    (sortSlice : List Card → (List Card → Int → Int → Option Bool) → Option (List Card))
    (hlib : SortsSlices sortSlice) (rPerm : Nat → List Nat)
    (hp : (rPerm 52).Perm (List.range 52)) :
    ∃ d sh, New [] = some d ∧ Shuffle rPerm d = some sh ∧
      (∀ i, i < 52 → sh[i]? = ((rPerm 52)[i]?).bind (fun j => d[j]?)) ∧
      DefaultSort sortSlice sh = some d ∧
      New [Shuffle rPerm, DefaultSort sortSlice] = some d ∧
      ∀ (i : Nat) (h : i + 1 < d.length),
        absRank (d.get ⟨i, by omega⟩) ≤ absRank (d.get ⟨i + 1, h⟩) := by
  have hp' : (rPerm canonical.length).Perm (List.range canonical.length) := by
    rw [canonical_length]; exact hp
  have hsh := Shuffle_eq rPerm canonical hp'
  have hshperm := Shuffle_perm rPerm canonical hp'
  obtain ⟨r, hr, hrperm, hchain⟩ := DefaultSort_spec sortSlice hlib
    ((rPerm canonical.length).map (fun j => canonical.getD j { Suit := 0, Rank := 0 }))
  have hrc : r = canonical := sorted_perm_canonical r (hrperm.trans hshperm) hchain
  rw [hrc] at hr hchain
  refine ⟨canonical, _, New_nil, hsh, ?_, hr, ?_, ?_⟩
  · intro i hi
    rw [canonical_length, List.getElem?_map]
    cases hj : (rPerm 52)[i]? with
    | none => rfl
    | some j =>
      have hjmem : j ∈ rPerm 52 := List.getElem?_mem hj
      have hjlt : j < canonical.length := by
        have := hp.mem_iff.mp hjmem
        rw [canonical_length]
        simpa using this
      simp [List.getD_eq_getElem?_getD, List.getElem?_eq_getElem hjlt]
  · simp only [New, applyOpts, List.foldl_cons, List.foldl_nil, Option.some_bind, hsh, hr]
  · intro i h
    exact List.chain'_iff_get.mp hchain i (by omega)

theorem DefaultSort_undoes_Shuffle_witness :
    ∃ d sh, New [] = some d ∧ Shuffle (fun n => (List.range n).reverse) d = some sh ∧
      (∀ i, i < 52 →
        sh[i]? = (((fun n => (List.range n).reverse) 52)[i]?).bind (fun j => d[j]?)) ∧
      DefaultSort mergeSortSlice sh = some d ∧
      New [Shuffle (fun n => (List.range n).reverse), DefaultSort mergeSortSlice] = some d ∧
      ∀ (i : Nat) (h : i + 1 < d.length),
        absRank (d.get ⟨i, by omega⟩) ≤ absRank (d.get ⟨i + 1, h⟩) :=
  DefaultSort_undoes_Shuffle mergeSortSlice mergeSortSlice_sorts
    (fun n => (List.range n).reverse) (List.reverse_perm _)

/-! ## `Shuffle` as a rearrangement -/

theorem shuffleMemLoop_eq (cards : List Card) (perm : List Nat) (i : Nat) (ret : List Card) :
    shuffleMemLoop perm i (cards, ret)
      = (shuffleLoop cards perm i ret).map (fun r => (cards, r)) := by
  induction perm generalizing i ret with
  | nil => simp [shuffleMemLoop, shuffleLoop]
  | cons j rest ih =>
    simp only [shuffleMemLoop, shuffleLoop]
    cases cards[j]? with
    | none => rfl
    | some c =>
      by_cases hi : i < ret.length
      · simp only [if_pos hi, ih]
      · simp only [if_neg hi, Option.map_none']

theorem ShuffleMem_eq (rPerm : Nat → List Nat) (cards : List Card) :
    ShuffleMem rPerm cards = (Shuffle rPerm cards).map (fun r => (cards, r)) := by
  simp only [ShuffleMem, Shuffle, shuffleMemLoop_eq]

theorem map_getD_getElem? (cards : List Card) (perm : List Nat)
    (hperm : ∀ j ∈ perm, j < cards.length) (i : Nat) :
    (perm.map (fun j => cards.getD j { Suit := 0, Rank := 0 }))[i]?
      = (perm[i]?).bind (fun j => cards[j]?) := by
  rw [List.getElem?_map]
  cases hj : perm[i]? with
  | none => rfl
  | some j =>
    have hjlt : j < cards.length := hperm j (List.getElem?_mem hj)
    simp [List.getD_eq_getElem?_getD, List.getElem?_eq_getElem hjlt]

/-- C11: when the random source draws a permutation `perm` of the positions of `cards`,
`Shuffle(cards)` is the fresh sequence with `result[i] = cards[perm[i]]`: it has the length of
`cards` and the same cards with the same multiplicities, and the slice `cards` holds the same
cards as before; so
`New(Shuffle)` is a rearrangement of the canonical deck. -/
theorem Shuffle_is_rearrangement (rPerm : Nat → List Nat) (cards : List Card)
    (hc : (rPerm cards.length).Perm (List.range cards.length))
    (h52 : (rPerm 52).Perm (List.range 52)) :
    (∃ r, Shuffle rPerm cards = some r ∧ ShuffleMem rPerm cards = some (cards, r) ∧
      (∀ i, i < cards.length → r[i]? = ((rPerm cards.length)[i]?).bind (fun j => cards[j]?)) ∧
      r.length = cards.length ∧ r.Perm cards ∧ ∀ x, r.count x = cards.count x) ∧
    (∃ d, New [Shuffle rPerm] = some d ∧ d.length = 52 ∧ d.Perm canonical) := by
  constructor
  · have hsh := Shuffle_eq rPerm cards hc
    have hp := Shuffle_perm rPerm cards hc
    refine ⟨_, hsh, ?_, ?_, hp.length_eq, hp, fun x => hp.count_eq x⟩
    · rw [ShuffleMem_eq, hsh]; rfl
    · intro i _
      exact map_getD_getElem? cards _ (fun j hj => by simpa using hc.mem_iff.mp hj) i
  · have h52' : (rPerm canonical.length).Perm (List.range canonical.length) := by
      rw [canonical_length]; exact h52
    have hsh := Shuffle_eq rPerm canonical h52'
    have hp := Shuffle_perm rPerm canonical h52'
    refine ⟨_, ?_, ?_, hp⟩
    · simp only [New, applyOpts, List.foldl_cons, List.foldl_nil, Option.some_bind, hsh]
    · rw [hp.length_eq, canonical_length]

theorem Shuffle_is_rearrangement_witness :
    (∃ r, Shuffle (fun n => (List.range n).reverse)
        [{ Suit := Club, Rank := Ten }, { Suit := Joker, Rank := 0 }] = some r ∧
      ShuffleMem (fun n => (List.range n).reverse)
        [{ Suit := Club, Rank := Ten }, { Suit := Joker, Rank := 0 }]
        = some ([{ Suit := Club, Rank := Ten }, { Suit := Joker, Rank := 0 }], r) ∧
      (∀ i, i < [({ Suit := Club, Rank := Ten } : Card), { Suit := Joker, Rank := 0 }].length →
        r[i]? = (((fun n => (List.range n).reverse)
          [({ Suit := Club, Rank := Ten } : Card), { Suit := Joker, Rank := 0 }].length)[i]?).bind
            (fun j =>
              ([{ Suit := Club, Rank := Ten }, { Suit := Joker, Rank := 0 }] : List Card)[j]?)) ∧
      r.length = [({ Suit := Club, Rank := Ten } : Card), { Suit := Joker, Rank := 0 }].length ∧
      r.Perm [{ Suit := Club, Rank := Ten }, { Suit := Joker, Rank := 0 }] ∧
      ∀ x, r.count x
        = [({ Suit := Club, Rank := Ten } : Card), { Suit := Joker, Rank := 0 }].count x) ∧
    (∃ d, New [Shuffle (fun n => (List.range n).reverse)] = some d ∧ d.length = 52 ∧
      d.Perm canonical) :=
  Shuffle_is_rearrangement (fun n => (List.range n).reverse)
    [{ Suit := Club, Rank := Ten }, { Suit := Joker, Rank := 0 }]
    (List.reverse_perm _) (List.reverse_perm _)

/-! ## The library sort on a deck that is already ascending -/

theorem Ascending.pairwise {d : List Card} (h : Ascending d) :
    d.Pairwise (fun a b => absRank a ≤ absRank b) := by
  haveI : IsTrans Card (fun a b => absRank a ≤ absRank b) :=
    ⟨fun _ _ _ h1 h2 => le_trans h1 h2⟩
  exact List.chain'_iff_pairwise.mp h

theorem Less_of_ascending (cards : List Card) (hasc : Ascending cards) (p q : Nat)
    (hpq : p ≤ q) (hq : q < cards.length) : Less cards (q : Int) (p : Int) = some false := by
  have hp : p < cards.length := by omega
  rw [Less_valid cards q p hq hp]
  have hle : absRank (cards.get ⟨p, hp⟩) ≤ absRank (cards.get ⟨q, hq⟩) := by
    rcases Nat.eq_or_lt_of_le hpq with heq | hlt
    · subst heq; exact le_refl _
    · exact List.pairwise_iff_get.mp hasc.pairwise ⟨p, hp⟩ ⟨q, hq⟩ hlt
  have hn : ¬ absRank (cards.get ⟨q, hq⟩) < absRank (cards.get ⟨p, hp⟩) := by omega
  rw [decide_eq_false hn]

theorem insertionInner_of_ascending (cards : List Card) (hasc : Ascending cards) (a i : Nat)
    (hi : i < cards.length) : insertionInner Less a i cards = some cards := by
  cases i with
  | zero => rfl
  | succ j =>
    simp only [insertionInner, Less_of_ascending cards hasc j (j + 1) (Nat.le_succ j) hi]
    split <;> rfl

theorem insertionOuter_of_ascending (cards : List Card) (hasc : Ascending cards) (a b : Nat)
    (hb : b ≤ cards.length) (k i : Nat) (hk : b - i = k) :
    insertionOuter Less a b i cards = some cards := by
  induction k generalizing i with
  | zero =>
    rw [insertionOuter, if_neg (by omega)]
  | succ k ih =>
    rw [insertionOuter, if_pos (by omega),
      insertionInner_of_ascending cards hasc a i (by omega)]
    exact ih (i + 1) (by omega)

theorem order2_of_ascending (cards : List Card) (hasc : Ascending cards) (a b s : Nat)
    (hab : a ≤ b) (hb : b < cards.length) : order2 Less cards a b s = some (a, b, s) := by
  simp only [order2, Less_of_ascending cards hasc a b hab hb]

theorem median_of_ascending (cards : List Card) (hasc : Ascending cards) (a b c s : Nat)
    (hab : a ≤ b) (hbc : b ≤ c) (hc : c < cards.length) :
    median Less cards a b c s = some (b, s) := by
  simp only [median, order2_of_ascending cards hasc a b s hab (by omega),
    order2_of_ascending cards hasc b c s hbc hc]

theorem choosePivot_of_ascending (cards : List Card) (hasc : Ascending cards) (a b : Nat)
    (hb : b ≤ cards.length) (hl : 12 < b - a) :
    ∃ p, choosePivot Less cards a b = some (p, sortedHint.increasingHint) := by
  refine ⟨a + (b - a) / 4 * 2, ?_⟩
  simp only [choosePivot, medianAdjacent]
  rw [if_pos (by omega)]
  by_cases h50 : 50 ≤ b - a
  · simp only [if_pos h50]
    rw [median_of_ascending cards hasc _ _ _ _ (by omega) (by omega) (by omega)]
    simp only
    rw [median_of_ascending cards hasc _ _ _ _ (by omega) (by omega) (by omega)]
    simp only
    rw [median_of_ascending cards hasc _ _ _ _ (by omega) (by omega) (by omega)]
    simp only
    rw [median_of_ascending cards hasc _ _ _ _ (by omega) (by omega) (by omega)]
    rfl
  · simp only [if_neg h50]
    rw [median_of_ascending cards hasc _ _ _ _ (by omega) (by omega) (by omega)]
    rfl

theorem partialInsertionScan_of_ascending (cards : List Card) (hasc : Ascending cards) (b : Nat)
    (hb : b ≤ cards.length) (k i : Nat) (hk : b - i = k) (hi : i ≤ b) :
    partialInsertionScan Less cards b i = some b := by
  induction k generalizing i with
  | zero =>
    rw [partialInsertionScan, if_neg (by omega)]
    congr 1
    omega
  | succ k ih =>
    rw [partialInsertionScan, if_pos (by omega),
      Less_of_ascending cards hasc (i - 1) i (by omega) (by omega)]
    exact ih (i + 1) (by omega) (by omega)

theorem Slice_of_ascending
    (rest : List Card → (List Card → Int → Int → Option Bool) → Option (List Card))
    (cards : List Card) (hasc : Ascending cards) : Slice rest cards Less = some cards := by
  unfold Slice pdqsort
  by_cases h12 : cards.length - 0 ≤ 12
  · rw [if_pos h12]
    exact insertionOuter_of_ascending cards hasc 0 cards.length (Nat.le_refl _) _ _ rfl
  · rw [if_neg h12]
    have hsize : Nat.size cards.length ≠ 0 := by
      rw [Ne, Nat.size_eq_zero]; omega
    rw [if_neg hsize]
    obtain ⟨p, hp⟩ := choosePivot_of_ascending cards hasc 0 cards.length (Nat.le_refl _)
      (by omega)
    rw [hp]
    simp only [if_true]
    rw [partialInsertionScan_of_ascending cards hasc cards.length (Nat.le_refl _) _ (0 + 1) rfl
      (by omega)]
    simp

/-! ## The library sort meets its contract -/

theorem swapAt_adjacent (L R : List Card) (l e : Card) :
    swapAt (L ++ l :: e :: R) (L.length + 1) L.length = some (L ++ e :: l :: R) := by
  have h1 : (L ++ l :: e :: R)[L.length + 1]? = some e := by
    rw [List.getElem?_append_right (by omega)]
    simp
  have h0 : (L ++ l :: e :: R)[L.length]? = some l := by
    rw [List.getElem?_append_right (by omega)]
    simp
  simp only [swapAt, h1, h0]
  congr 1
  rw [List.set_append_right _ _ (by omega)]
  simp

theorem less_adjacent (less : List Card → Int → Int → Option Bool) (lt : Card → Card → Bool)
    (hless : ∀ (cur : List Card) (i j : Nat) (hi : i < cur.length) (hj : j < cur.length),
      less cur i j = some (lt (cur.get ⟨i, hi⟩) (cur.get ⟨j, hj⟩)))
    (L R : List Card) (l e : Card) :
    less (L ++ l :: e :: R) ((L.length + 1 : Nat) : Int) ((L.length : Nat) : Int)
      = some (lt e l) := by
  rw [hless (L ++ l :: e :: R) (L.length + 1) L.length (by simp) (by simp)]
  congr 2
  · simp [List.getElem_append_right]
  · simp [List.getElem_append_right]

theorem insertionInner_spec (less : List Card → Int → Int → Option Bool)
    (lt : Card → Card → Bool)
    (hinc : ∀ a b c, lt a b = false → lt b c = false → lt a c = false)
    (hless : ∀ (cur : List Card) (i j : Nat) (hi : i < cur.length) (hj : j < cur.length),
      less cur i j = some (lt (cur.get ⟨i, hi⟩) (cur.get ⟨j, hj⟩)))
    (e : Card) (L R : List Card) (hL : L.Pairwise (fun a b => lt b a = false)) :
    ∃ L₁ L₂, L = L₁ ++ L₂ ∧
      insertionInner less 0 L.length (L ++ e :: R) = some (L₁ ++ e :: L₂ ++ R) ∧
      (∀ y ∈ L₂, lt e y = true) ∧ (∀ y ∈ L₁, lt e y = false) := by
  induction L using List.reverseRecOn generalizing R with
  | nil => exact ⟨[], [], rfl, rfl, by simp, by simp⟩
  | append_singleton L' l ih =>
    have hlen : (L' ++ [l]).length = L'.length + 1 := by simp
    have hcur : L' ++ [l] ++ e :: R = L' ++ l :: e :: R := by simp
    rw [hlen, hcur]
    have hL' : L'.Pairwise (fun a b => lt b a = false) := (List.pairwise_append.mp hL).1
    have hLl : ∀ y ∈ L', lt l y = false := fun y hy =>
      (List.pairwise_append.mp hL).2.2 y hy l (List.mem_singleton_self l)
    simp only [insertionInner, Nat.zero_lt_succ, if_true, less_adjacent less lt hless L' R l e,
      swapAt_adjacent L' R l e]
    cases hel : lt e l with
    | true =>
      obtain ⟨L₁, L₂, hsplit, hrun, h₂, h₁⟩ := ih (l :: R) hL'
      refine ⟨L₁, L₂ ++ [l], by rw [hsplit, List.append_assoc], ?_, ?_, h₁⟩
      · simp only [hrun]
        simp
      · intro y hy
        rcases List.mem_append.mp hy with h | h
        · exact h₂ y h
        · rw [List.mem_singleton.mp h]; exact hel
    | false =>
      refine ⟨L' ++ [l], [], by simp, by simp, by simp, ?_⟩
      intro y hy
      rcases List.mem_append.mp hy with h | h
      · exact hinc e l y hel (hLl y h)
      · rw [List.mem_singleton.mp h]; exact hel

theorem insertionOuter_spec (less : List Card → Int → Int → Option Bool)
    (lt : Card → Card → Bool) (hirr : ∀ a, lt a a = false)
    (htr : ∀ a b c, lt a b = true → lt b c = true → lt a c = true)
    (hinc : ∀ a b c, lt a b = false → lt b c = false → lt a c = false)
    (hless : ∀ (cur : List Card) (i j : Nat) (hi : i < cur.length) (hj : j < cur.length),
      less cur i j = some (lt (cur.get ⟨i, hi⟩) (cur.get ⟨j, hj⟩)))
    (k i : Nat) (cur : List Card) (hk : cur.length - i = k)
    (hsorted : (cur.take i).Pairwise (fun a b => lt b a = false)) :
    ∃ r, insertionOuter less 0 cur.length i cur = some r ∧ r.Perm cur ∧
      r.Pairwise (fun a b => lt b a = false) := by
  induction k generalizing i cur with
  | zero =>
    rw [insertionOuter, if_neg (by omega)]
    refine ⟨cur, rfl, List.Perm.refl _, ?_⟩
    rwa [List.take_of_length_le (by omega)] at hsorted
  | succ k ih =>
    have hi : i < cur.length := by omega
    have hcur : cur = cur.take i ++ cur[i] :: cur.drop (i + 1) := by
      rw [List.getElem_cons_drop, List.take_append_drop]
    have hLlen : (cur.take i).length = i := by
      rw [List.length_take]; omega
    obtain ⟨L₁, L₂, hsplit, hrun, h₂, h₁⟩ :=
      insertionInner_spec less lt hinc hless cur[i] (cur.take i) (cur.drop (i + 1)) hsorted
    rw [hLlen, ← hcur] at hrun
    have hperm : (L₁ ++ cur[i] :: L₂ ++ cur.drop (i + 1)).Perm cur := by
      have h1 : (L₁ ++ cur[i] :: L₂ ++ cur.drop (i + 1)).Perm
          (L₁ ++ L₂ ++ cur[i] :: cur.drop (i + 1)) := by
        simp only [List.append_assoc, List.cons_append]
        exact List.Perm.append_left L₁ List.perm_middle.symm
      rw [← hsplit, ← hcur] at h1
      exact h1
    have hnextlen : (L₁ ++ cur[i] :: L₂ ++ cur.drop (i + 1)).length = cur.length :=
      hperm.length_eq
    have hpre : (L₁ ++ cur[i] :: L₂ ++ cur.drop (i + 1)).take (i + 1) = L₁ ++ cur[i] :: L₂ := by
      have hl : (L₁ ++ cur[i] :: L₂).length = i + 1 := by
        have := congrArg List.length hsplit
        simp only [List.length_append, List.length_cons] at this ⊢
        omega
      rw [show L₁ ++ cur[i] :: L₂ ++ cur.drop (i + 1)
        = (L₁ ++ cur[i] :: L₂) ++ cur.drop (i + 1) by simp]
      exact List.take_left' hl
    have hsorted' : (L₁ ++ cur[i] :: L₂).Pairwise (fun a b => lt b a = false) := by
      rw [hsplit] at hsorted
      obtain ⟨hp₁, hp₂, hcross⟩ := List.pairwise_append.mp hsorted
      refine List.pairwise_append.mpr ⟨hp₁, ?_, ?_⟩
      · refine List.pairwise_cons.mpr ⟨?_, hp₂⟩
        intro y hy
        cases hye : lt y cur[i] with
        | false => rfl
        | true =>
          have := htr _ _ _ (h₂ y hy) hye
          rw [hirr] at this
          exact absurd this (by simp)
      · intro a ha b hb
        rcases List.mem_cons.mp hb with h | h
        · rw [h]; exact h₁ a ha
        · exact hcross a ha b h
    obtain ⟨r, hr, hrperm, hrsorted⟩ := ih (i + 1) _ (by rw [hnextlen]; omega)
      (by rw [hpre]; exact hsorted')
    rw [hnextlen] at hr
    refine ⟨r, ?_, hrperm.trans hperm, hrsorted⟩
    rw [insertionOuter, if_pos hi, hrun]
    exact hr

theorem order2_some (less : List Card → Int → Int → Option Bool) (lt : Card → Card → Bool)
    (hless : ∀ (cur : List Card) (i j : Nat) (hi : i < cur.length) (hj : j < cur.length),
      less cur i j = some (lt (cur.get ⟨i, hi⟩) (cur.get ⟨j, hj⟩)))
    (cur : List Card) (a b s : Nat) (ha : a < cur.length) (hb : b < cur.length) :
    ∃ a₁ b₁ s₁, order2 less cur a b s = some (a₁, b₁, s₁) ∧ a₁ < cur.length ∧
      b₁ < cur.length := by
  simp only [order2, hless cur b a hb ha]
  cases lt (cur.get ⟨b, hb⟩) (cur.get ⟨a, ha⟩) with
  | true => exact ⟨b, a, s + 1, rfl, hb, ha⟩
  | false => exact ⟨a, b, s, rfl, ha, hb⟩

theorem median_some (less : List Card → Int → Int → Option Bool) (lt : Card → Card → Bool)
    (hless : ∀ (cur : List Card) (i j : Nat) (hi : i < cur.length) (hj : j < cur.length),
      less cur i j = some (lt (cur.get ⟨i, hi⟩) (cur.get ⟨j, hj⟩)))
    (cur : List Card) (a b c s : Nat) (ha : a < cur.length) (hb : b < cur.length)
    (hc : c < cur.length) :
    ∃ m s₁, median less cur a b c s = some (m, s₁) ∧ m < cur.length := by
  obtain ⟨a₁, b₁, s₁, h1, ha₁, hb₁⟩ := order2_some less lt hless cur a b s ha hb
  obtain ⟨b₂, c₂, s₂, h2, hb₂, _⟩ := order2_some less lt hless cur b₁ c s₁ hb₁ hc
  obtain ⟨a₃, b₃, s₃, h3, _, hb₃⟩ := order2_some less lt hless cur a₁ b₂ s₂ ha₁ hb₂
  exact ⟨b₃, s₃, by simp only [median, h1, h2, h3], hb₃⟩

theorem choosePivot_some (less : List Card → Int → Int → Option Bool)
    (lt : Card → Card → Bool)
    (hless : ∀ (cur : List Card) (i j : Nat) (hi : i < cur.length) (hj : j < cur.length),
      less cur i j = some (lt (cur.get ⟨i, hi⟩) (cur.get ⟨j, hj⟩)))
    (cur : List Card) (hl : 12 < cur.length) :
    ∃ r, choosePivot less cur 0 cur.length = some r := by
  simp only [choosePivot, medianAdjacent]
  rw [if_pos (by omega)]
  by_cases h50 : 50 ≤ cur.length - 0
  · simp only [if_pos h50]
    obtain ⟨i₁, s₁, h1, hi₁⟩ := median_some less lt hless cur
      (0 + (cur.length - 0) / 4 * 1 - 1) (0 + (cur.length - 0) / 4 * 1)
      (0 + (cur.length - 0) / 4 * 1 + 1) 0 (by omega) (by omega) (by omega)
    obtain ⟨j₁, s₂, h2, hj₁⟩ := median_some less lt hless cur
      (0 + (cur.length - 0) / 4 * 2 - 1) (0 + (cur.length - 0) / 4 * 2)
      (0 + (cur.length - 0) / 4 * 2 + 1) s₁ (by omega) (by omega) (by omega)
    obtain ⟨k₁, s₃, h3, hk₁⟩ := median_some less lt hless cur
      (0 + (cur.length - 0) / 4 * 3 - 1) (0 + (cur.length - 0) / 4 * 3)
      (0 + (cur.length - 0) / 4 * 3 + 1) s₂ (by omega) (by omega) (by omega)
    obtain ⟨m, s₄, h4, _⟩ := median_some less lt hless cur i₁ j₁ k₁ s₃ hi₁ hj₁ hk₁
    simp only [h1, h2, h3, h4]
    exact ⟨_, rfl⟩
  · simp only [if_neg h50]
    obtain ⟨m, s₁, h1, _⟩ := median_some less lt hless cur
      (0 + (cur.length - 0) / 4 * 1) (0 + (cur.length - 0) / 4 * 2)
      (0 + (cur.length - 0) / 4 * 3) 0 (by omega) (by omega) (by omega)
    simp only [h1]
    exact ⟨_, rfl⟩

theorem partialInsertionScan_spec (less : List Card → Int → Int → Option Bool)
    (lt : Card → Card → Bool)
    (hless : ∀ (cur : List Card) (i j : Nat) (hi : i < cur.length) (hj : j < cur.length),
      less cur i j = some (lt (cur.get ⟨i, hi⟩) (cur.get ⟨j, hj⟩)))
    (cur : List Card) (k i : Nat) (hk : cur.length - i = k) (hi1 : 1 ≤ i) :
    ∃ r, partialInsertionScan less cur cur.length i = some r ∧
      (r = cur.length → ∀ (p : Nat) (hp : p < cur.length), i ≤ p →
        lt (cur.get ⟨p, hp⟩) (cur.get ⟨p - 1, by omega⟩) = false) := by
  induction k generalizing i with
  | zero =>
    rw [partialInsertionScan, if_neg (by omega)]
    exact ⟨i, rfl, fun _ p hp hip => absurd hp (by omega)⟩
  | succ k ih =>
    have hi : i < cur.length := by omega
    rw [partialInsertionScan, if_pos hi, hless cur i (i - 1) hi (by omega)]
    cases hlt : lt (cur.get ⟨i, hi⟩) (cur.get ⟨i - 1, by omega⟩) with
    | true => exact ⟨i, rfl, fun h => absurd h (by omega)⟩
    | false =>
      obtain ⟨r, hr, hall⟩ := ih (i + 1) (by omega) (by omega)
      refine ⟨r, hr, ?_⟩
      intro hrlen p hp hip
      rcases Nat.eq_or_lt_of_le hip with heq | hlt'
      · subst heq; exact hlt
      · exact hall hrlen p hp hlt'

theorem Slice_sorts : SortsSlices (Slice mergeSortSlice) := by
  constructor
  intro x less lt hirr htr hinc hless
  unfold Slice pdqsort
  by_cases h12 : x.length - 0 ≤ 12
  · rw [if_pos h12]
    have hstart : (x.take (0 + 1)).Pairwise (fun a b => lt b a = false) := by
      cases x with
      | nil => simp
      | cons a as => simp
    obtain ⟨r, hr, hperm, hsorted⟩ :=
      insertionOuter_spec less lt hirr htr hinc hless _ (0 + 1) x rfl hstart
    exact ⟨r, hr, hperm, hsorted.chain'⟩
  · rw [if_neg h12]
    have hsize : Nat.size x.length ≠ 0 := by
      rw [Ne, Nat.size_eq_zero]; omega
    rw [if_neg hsize]
    obtain ⟨⟨p, hint⟩, hp⟩ := choosePivot_some less lt hless x (by omega)
    rw [hp]
    by_cases hinc' : hint = sortedHint.increasingHint
    · simp only [if_pos hinc']
      obtain ⟨i, hi, hall⟩ := partialInsertionScan_spec less lt hless x _ (0 + 1) rfl
        (by omega)
      rw [hi]
      by_cases hib : i = x.length
      · simp only [if_pos hib]
        refine ⟨x, rfl, List.Perm.refl _, ?_⟩
        rw [List.chain'_iff_get]
        intro j hj
        have h := hall hib (j + 1) (by omega) (by omega)
        simpa using h
      · simp only [if_neg hib]
        exact mergeSortSlice_sorts.sorts x less lt hirr htr hinc hless
    · simp only [if_neg hinc']
      exact mergeSortSlice_sorts.sorts x less lt hirr htr hinc hless

/-- C12: `DefaultSort` is idempotent. A deck that is already ascending by `absRank` comes back
from `DefaultSort` as the same sequence, cards of equal `absRank` included: the library sort
(`Slice`, the pattern-defeating quicksort of `sort.Slice`) finds no card less than the one
before it and exchanges nothing. Hence for every deck `d`, `DefaultSort` returns, and sorting
its result once more gives that result again. -/
theorem DefaultSort_idempotent
    (rest : List Card → (List Card → Int → Int → Option Bool) → Option (List Card))
    (hlib : SortsSlices (Slice rest)) (cards : List Card) (hasc : Ascending cards) :
    DefaultSort (Slice rest) cards = some cards ∧
    ∀ d : List Card, ∃ r, DefaultSort (Slice rest) d = some r ∧
      DefaultSort (Slice rest) r = some r ∧
      (DefaultSort (Slice rest) d).bind (DefaultSort (Slice rest))
        = DefaultSort (Slice rest) d := by
  refine ⟨Slice_of_ascending rest cards hasc, ?_⟩
  intro d
  obtain ⟨r, hr, _, hchain⟩ := DefaultSort_spec (Slice rest) hlib d
  have hrr : DefaultSort (Slice rest) r = some r := Slice_of_ascending rest r hchain
  exact ⟨r, hr, hrr, by rw [hr, Option.some_bind, hrr]⟩

theorem DefaultSort_idempotent_witness :
    DefaultSort (Slice mergeSortSlice)
        [{ Suit := Spade, Rank := Two }, { Suit := Heart, Rank := King },
          { Suit := Joker, Rank := 0 }, { Suit := Joker, Rank := 1 }]
      = some [{ Suit := Spade, Rank := Two }, { Suit := Heart, Rank := King },
          { Suit := Joker, Rank := 0 }, { Suit := Joker, Rank := 1 }] ∧
    ∀ d : List Card, ∃ r, DefaultSort (Slice mergeSortSlice) d = some r ∧
      DefaultSort (Slice mergeSortSlice) r = some r ∧
      (DefaultSort (Slice mergeSortSlice) d).bind (DefaultSort (Slice mergeSortSlice))
        = DefaultSort (Slice mergeSortSlice) d :=
  DefaultSort_idempotent mergeSortSlice Slice_sorts
    [{ Suit := Spade, Rank := Two }, { Suit := Heart, Rank := King },
      { Suit := Joker, Rank := 0 }, { Suit := Joker, Rank := 1 }]
    (by
      simp only [Ascending, List.chain'_cons, List.chain'_singleton, and_true]
      decide)

/-! ## The rank scalar and the comparator -/

theorem Less_true_iff (cards : List Card) (i j : Nat) (hi : i < cards.length)
    (hj : j < cards.length) :
    Less cards i j = some true ↔ absRank (cards.get ⟨i, hi⟩) < absRank (cards.get ⟨j, hj⟩) := by
  rw [Less_valid cards i j hi hj]
  simp

theorem canonical_absRank_getElem? (k : Nat) (hk : k < 52) :
    (canonical[k]?).map absRank = some ((k : Int) + 1) := by
  have h := canonical_getElem? (k / 13) (k % 13) (by omega) (Nat.mod_lt _ (by decide))
  rw [show 13 * (k / 13) + k % 13 = k from Nat.div_add_mod k 13] at h
  rw [h, Option.map_some', absRank_eq]
  congr 1
  push_cast
  omega

/-- C13: for a card whose `Suit` and `Rank` are any values from 0 to 255, `absRank` is the exact
integer `Suit * 13 + Rank`, between 0 and 3570, not reduced modulo 256 (the suits count 0 for
Spade to 4 for Joker, the ranks 1 for Ace to 13 for King); `Less(cards)(i, j)` returns, and
returns true exactly when `absRank(cards[i]) < absRank(cards[j])`; the card at position `k` of
`New()` has the `absRank` `k + 1`. -/
theorem absRank_exact_and_Less_compares (c : Card) (hs : c.Suit < 256) (hr : c.Rank < 256)
    (cards : List Card) (i j : Nat) (hi : i < cards.length) (hj : j < cards.length) :
    absRank c = ((c.Suit * 13 + c.Rank : Nat) : Int) ∧
    0 ≤ absRank c ∧ absRank c ≤ 3570 ∧
    absRank { Suit := 255, Rank := 255 } = 3570 ∧
    (Spade = 0 ∧ Diamond = 1 ∧ Club = 2 ∧ Heart = 3 ∧ Joker = 4 ∧ Ace = 1 ∧ King = 13) ∧
    (∃ b, Less cards i j = some b ∧
      (b = true ↔ absRank (cards.get ⟨i, hi⟩) < absRank (cards.get ⟨j, hj⟩))) ∧
    (∀ k : Nat, k < 52 → ∃ d, New [] = some d ∧ (d[k]?).map absRank = some ((k : Int) + 1)) := by
  refine ⟨?_, ?_, ?_, by decide, by decide, ?_, ?_⟩
  · rw [absRank_eq]; push_cast; ring
  · rw [absRank_eq]; omega
  · rw [absRank_eq]; omega
  · exact ⟨_, Less_valid cards i j hi hj, by simp⟩
  · intro k hk
    exact ⟨canonical, New_nil, canonical_absRank_getElem? k hk⟩

theorem absRank_exact_and_Less_compares_witness :
    absRank { Suit := Joker, Rank := 255 }
      = (((({ Suit := Joker, Rank := 255 } : Card).Suit * 13
          + ({ Suit := Joker, Rank := 255 } : Card).Rank : Nat)) : Int) ∧
    0 ≤ absRank { Suit := Joker, Rank := 255 } ∧ absRank { Suit := Joker, Rank := 255 } ≤ 3570 ∧
    absRank { Suit := 255, Rank := 255 } = 3570 ∧
    (Spade = 0 ∧ Diamond = 1 ∧ Club = 2 ∧ Heart = 3 ∧ Joker = 4 ∧ Ace = 1 ∧ King = 13) ∧
    (∃ b, Less [{ Suit := Club, Rank := Two }, { Suit := Spade, Rank := King }] (1 : Nat)
        (0 : Nat) = some b ∧
      (b = true ↔
        absRank (([{ Suit := Club, Rank := Two }, { Suit := Spade, Rank := King }] :
            List Card).get ⟨1, by decide⟩)
          < absRank (([{ Suit := Club, Rank := Two }, { Suit := Spade, Rank := King }] :
            List Card).get ⟨0, by decide⟩))) ∧
    (∀ k : Nat, k < 52 → ∃ d, New [] = some d ∧ (d[k]?).map absRank = some ((k : Int) + 1)) :=
  absRank_exact_and_Less_compares { Suit := Joker, Rank := 255 } (by decide) (by decide)
    [{ Suit := Club, Rank := Two }, { Suit := Spade, Rank := King }] 1 0 (by decide) (by decide)

theorem absRank_inj_standard (a b : Card) (ha : a.Suit < 4 ∧ 1 ≤ a.Rank ∧ a.Rank ≤ 13)
    (hb : b.Suit < 4 ∧ 1 ≤ b.Rank ∧ b.Rank ≤ 13) (h : absRank a = absRank b) : a = b := by
  rw [absRank_eq, absRank_eq] at h
  cases a with
  | mk s1 r1 =>
    cases b with
    | mk s2 r2 =>
      simp only at h ha hb
      have hs : s1 = s2 := by omega
      have hr : r1 = r2 := by omega
      rw [hs, hr]

theorem canonical_absRank_get (i : Nat) (hi : i < canonical.length) :
    absRank (canonical.get ⟨i, hi⟩) = (i : Int) + 1 := by
  have h := canonical_absRank_getElem? i (by rw [← canonical_length]; exact hi)
  rw [List.getElem?_eq_getElem hi, Option.map_some'] at h
  exact Option.some.inj h

/-- C14: on the standard cards (a suit among Spade, Diamond, Club, Heart and a rank from Ace to
King), `absRank` is injective: two of them with the same `absRank` are the same card, and two
different ones are strictly ordered one way or the other. On the deck of `New()` the comparator
`Less` is a strict total order of the positions: never true of a position and itself, true one
way or the other for two different positions, and transitive. -/
theorem absRank_injective_on_standard_cards (a b : Card)
    (ha : a.Suit ∈ [Spade, Diamond, Club, Heart] ∧ Ace ≤ a.Rank ∧ a.Rank ≤ King)
    (hb : b.Suit ∈ [Spade, Diamond, Club, Heart] ∧ Ace ≤ b.Rank ∧ b.Rank ≤ King) :
    (absRank a = absRank b → a = b) ∧
    (a ≠ b → absRank a < absRank b ∨ absRank b < absRank a) ∧
    (∃ d, New [] = some d ∧
      (∀ i : Nat, i < 52 → Less d i i = some false) ∧
      (∀ i j : Nat, i < 52 → j < 52 → i ≠ j →
        (Less d i j = some true ∧ Less d j i = some false) ∨
        (Less d i j = some false ∧ Less d j i = some true)) ∧
      (∀ i j k : Nat, i < 52 → j < 52 → k < 52 →
        Less d i j = some true → Less d j k = some true → Less d i k = some true)) := by
  have ha' : a.Suit < 4 ∧ 1 ≤ a.Rank ∧ a.Rank ≤ 13 := by
    obtain ⟨h1, h2, h3⟩ := ha
    simp only [Spade, Diamond, Club, Heart, List.mem_cons, List.mem_singleton,
      List.not_mem_nil, or_false] at h1
    exact ⟨by omega, h2, h3⟩
  have hb' : b.Suit < 4 ∧ 1 ≤ b.Rank ∧ b.Rank ≤ 13 := by
    obtain ⟨h1, h2, h3⟩ := hb
    simp only [Spade, Diamond, Club, Heart, List.mem_cons, List.mem_singleton,
      List.not_mem_nil, or_false] at h1
    exact ⟨by omega, h2, h3⟩
  have hinj : absRank a = absRank b → a = b := absRank_inj_standard a b ha' hb'
  refine ⟨hinj, ?_, canonical, New_nil, ?_, ?_, ?_⟩
  · intro hne
    have : absRank a ≠ absRank b := fun h => hne (hinj h)
    omega
  · intro i hi
    have hi' : i < canonical.length := by rw [canonical_length]; exact hi
    rw [Less_valid canonical i i hi' hi']
    simp
  · intro i j hi hj hne
    have hi' : i < canonical.length := by rw [canonical_length]; exact hi
    have hj' : j < canonical.length := by rw [canonical_length]; exact hj
    rw [Less_valid canonical i j hi' hj', Less_valid canonical j i hj' hi',
      canonical_absRank_get i hi', canonical_absRank_get j hj']
    simp only [Option.some.injEq, decide_eq_true_eq, decide_eq_false_iff_not]
    omega
  · intro i j k hi hj hk
    have hi' : i < canonical.length := by rw [canonical_length]; exact hi
    have hj' : j < canonical.length := by rw [canonical_length]; exact hj
    have hk' : k < canonical.length := by rw [canonical_length]; exact hk
    rw [Less_true_iff canonical i j hi' hj', Less_true_iff canonical j k hj' hk',
      Less_true_iff canonical i k hi' hk']
    omega

theorem absRank_injective_on_standard_cards_witness :
    (absRank { Suit := Spade, Rank := King } = absRank { Suit := Diamond, Rank := Ace } →
      ({ Suit := Spade, Rank := King } : Card) = { Suit := Diamond, Rank := Ace }) ∧
    (({ Suit := Spade, Rank := King } : Card) ≠ { Suit := Diamond, Rank := Ace } →
      absRank { Suit := Spade, Rank := King } < absRank { Suit := Diamond, Rank := Ace } ∨
      absRank { Suit := Diamond, Rank := Ace } < absRank { Suit := Spade, Rank := King }) ∧
    (∃ d, New [] = some d ∧
      (∀ i : Nat, i < 52 → Less d i i = some false) ∧
      (∀ i j : Nat, i < 52 → j < 52 → i ≠ j →
        (Less d i j = some true ∧ Less d j i = some false) ∨
        (Less d i j = some false ∧ Less d j i = some true)) ∧
      (∀ i j k : Nat, i < 52 → j < 52 → k < 52 →
        Less d i j = some true → Less d j k = some true → Less d i k = some true)) :=
  absRank_injective_on_standard_cards { Suit := Spade, Rank := King }
    { Suit := Diamond, Rank := Ace } (by decide) (by decide)

/-! ## Rendering -/

/-- C15: a card of suit Joker is rendered as the name of its suit, "Joker", whatever its rank; a
card with a suit among Spade, Diamond, Club, Heart and a rank from Ace to King is rendered as the
name of the rank, " of ", the name of the suit and "s", with the names of the two tables; the
Ace of Spade is rendered "Ace of Spades". -/
theorem Card_String_rendering (unnamedSuit unnamedRank : Nat → String) :
    (∀ r, Card.String unnamedSuit unnamedRank { Suit := Joker, Rank := r } = "Joker") ∧
    (∀ s r, s < 4 → 1 ≤ r → r ≤ 13 →
      Card.String unnamedSuit unnamedRank { Suit := s, Rank := r }
        = rankNames.getD (r - 1) "" ++ " of " ++ suitNames.getD s "" ++ "s") ∧
    Card.String unnamedSuit unnamedRank { Suit := Spade, Rank := Ace } = "Ace of Spades" ∧
    Card.String unnamedSuit unnamedRank { Suit := Joker, Rank := 0 } = "Joker" ∧
    Card.String unnamedSuit unnamedRank { Suit := Heart, Rank := King } = "King of Hearts" := by
  refine ⟨?_, ?_, rfl, rfl, rfl⟩
  · intro r
    simp [Card.String, SuitString]
  · intro s r hs h1 h13
    interval_cases s <;> interval_cases r <;> rfl

/-! ## The invariant of built decks -/

theorem Jokers_eq_toNat (n : Int) (cards : List Card) :
    Jokers n cards
      = some (cards ++ (List.range n.toNat).map
          (fun j => { Suit := Joker, Rank := j % 256 })) := by
  have h := jokersLoop_eq n.toNat n 0 cards (by simp)
  simp only [Jokers, h, zero_add]
  congr 3

theorem canonical_wellFormed : WellFormed canonical := by
  intro x hx _
  have h := canonical_mem_bounds x hx
  refine ⟨?_, h.2.1, h.2.2⟩
  have h4 := h.1
  simp only [Spade, Diamond, Club, Heart, List.mem_cons, List.mem_singleton,
    List.not_mem_nil, or_false]
  omega

theorem WellFormed.of_mem {d r : List Card} (hd : WellFormed d)
    (h : ∀ x ∈ r, x ∈ d ∨ x.Suit = Joker) : WellFormed r := by
  intro x hx hne
  rcases h x hx with hmem | hj
  · exact hd x hmem hne
  · exact absurd hj hne

theorem LibraryOption.preserves
    {sortSlice : List Card → (List Card → Int → Int → Option Bool) → Option (List Card)}
    (hlib : SortsSlices sortSlice) {o : List Card → Option (List Card)}
    (ho : LibraryOption sortSlice o) (d : List Card) (hd : WellFormed d) :
    ∃ r, o d = some r ∧ WellFormed r := by
  cases ho with
  | shuffle rPerm h =>
    refine ⟨_, Shuffle_eq rPerm d (h _), hd.of_mem ?_⟩
    intro x hx
    exact Or.inl ((Shuffle_perm rPerm d (h _)).mem_iff.mp hx)
  | defaultSort =>
    obtain ⟨r, hr, hperm, _⟩ := DefaultSort_spec sortSlice hlib d
    exact ⟨r, hr, hd.of_mem (fun x hx => Or.inl (hperm.mem_iff.mp hx))⟩
  | jokers n =>
    refine ⟨_, Jokers_eq_toNat n d, hd.of_mem ?_⟩
    intro x hx
    rcases List.mem_append.mp hx with h | h
    · exact Or.inl h
    · obtain ⟨j, _, rfl⟩ := List.mem_map.mp h
      exact Or.inr rfl
  | filter f =>
    refine ⟨_, Filter_eq f d, hd.of_mem ?_⟩
    intro x hx
    exact Or.inl (List.mem_filter.mp hx).1
  | deck n =>
    refine ⟨_, Deck_eq n d, hd.of_mem ?_⟩
    intro x hx
    obtain ⟨l, hl, hxl⟩ := List.mem_flatten.mp hx
    rw [List.eq_of_mem_replicate hl] at hxl
    exact Or.inl hxl

theorem applyOpts_wellFormed
    {sortSlice : List Card → (List Card → Int → Int → Option Bool) → Option (List Card)}
    (hlib : SortsSlices sortSlice) (opts : List (List Card → Option (List Card)))
    (hopts : ∀ o ∈ opts, LibraryOption sortSlice o) (d : List Card) (hd : WellFormed d) :
    ∃ r, applyOpts opts d = some r ∧ WellFormed r := by
  induction opts generalizing d with
  | nil => exact ⟨d, rfl, hd⟩
  | cons o os ih =>
    obtain ⟨d₁, h₁, hw₁⟩ := (hopts o (List.mem_cons_self _ _)).preserves hlib d hd
    obtain ⟨r, hr, hw⟩ := ih (fun p hp => hopts p (List.mem_cons_of_mem _ hp)) d₁ hw₁
    refine ⟨r, ?_, hw⟩
    simp only [applyOpts, List.foldl_cons, Option.some_bind, h₁] at hr ⊢
    exact hr

/-- C16: a deck that `New` builds with any sequence of the options `Shuffle`, `DefaultSort`,
`Jokers(n)`, `Filter(f)` and `Deck(n)` is well formed: each of its cards that is not a joker has
one of the four suits and a rank from Ace to King, never the rank 0. Each of these options
returns and keeps a well-formed deck well formed, and the cards that `Jokers` adds after the
given ones have the suit Joker. The library's `sort.Slice` is any sort that meets
`SortsSlices`. -/
theorem built_decks_are_well_formed
    (sortSlice : List Card → (List Card → Int → Int → Option Bool) → Option (List Card))
    (hlib : SortsSlices sortSlice) (opts : List (List Card → Option (List Card)))
    (hopts : ∀ o ∈ opts, LibraryOption sortSlice o) :
    (∃ d, New opts = some d ∧ WellFormed d ∧
      ∀ x ∈ d, x.Suit ≠ Joker → x.Suit < 4 ∧ x.Rank ≠ 0 ∧ 1 ≤ x.Rank ∧ x.Rank ≤ 13) ∧
    (∀ o, LibraryOption sortSlice o → ∀ d, WellFormed d → ∃ r, o d = some r ∧ WellFormed r) ∧
    (∀ (n : Int) (cards : List Card), ∃ r, Jokers n cards = some r ∧
      r.take cards.length = cards ∧ ∀ x ∈ r.drop cards.length, x.Suit = Joker) := by
  refine ⟨?_, fun o ho d hd => ho.preserves hlib d hd, ?_⟩
  · obtain ⟨d, hd, hw⟩ := applyOpts_wellFormed hlib opts hopts canonical canonical_wellFormed
    refine ⟨d, hd, hw, ?_⟩
    intro x hx hne
    obtain ⟨h1, h2, h3⟩ := hw x hx hne
    simp only [Spade, Diamond, Club, Heart, List.mem_cons, List.mem_singleton,
      List.not_mem_nil, or_false] at h1
    simp only [Ace, King] at h2 h3
    exact ⟨by omega, by omega, h2, h3⟩
  · intro n cards
    refine ⟨_, Jokers_eq_toNat n cards, by simp, ?_⟩
    intro x hx
    simp only [List.drop_left, List.mem_map] at hx
    obtain ⟨j, _, rfl⟩ := hx
    rfl

theorem built_decks_are_well_formed_witness :
    (∃ d, New [Jokers 2, Shuffle (fun n => (List.range n).reverse), Deck 2,
        Filter (fun card => card.Suit == Heart), DefaultSort mergeSortSlice] = some d ∧
      WellFormed d ∧
      ∀ x ∈ d, x.Suit ≠ Joker → x.Suit < 4 ∧ x.Rank ≠ 0 ∧ 1 ≤ x.Rank ∧ x.Rank ≤ 13) ∧
    (∀ o, LibraryOption mergeSortSlice o → ∀ d, WellFormed d →
      ∃ r, o d = some r ∧ WellFormed r) ∧
    (∀ (n : Int) (cards : List Card), ∃ r, Jokers n cards = some r ∧
      r.take cards.length = cards ∧ ∀ x ∈ r.drop cards.length, x.Suit = Joker) :=
  built_decks_are_well_formed mergeSortSlice mergeSortSlice_sorts
    [Jokers 2, Shuffle (fun n => (List.range n).reverse), Deck 2,
      Filter (fun card => card.Suit == Heart), DefaultSort mergeSortSlice]
    (by
      intro o ho
      simp only [List.mem_cons, List.mem_singleton, List.not_mem_nil, or_false] at ho
      rcases ho with rfl | rfl | rfl | rfl | rfl
      · exact LibraryOption.jokers 2
      · exact LibraryOption.shuffle _ (fun n => List.reverse_perm _)
      · exact LibraryOption.deck 2
      · exact LibraryOption.filter _
      · exact LibraryOption.defaultSort)

/-! ## `Sort` with the default comparator, negative counts, and the joker collision -/

/-- C17: `Sort` given the library's comparator factory `Less` is `DefaultSort`: on every deck
both run `sort.Slice` on the deck with `Less` of the deck and return the result, so they agree
as options of `New` too. -/
theorem Sort_Less_is_DefaultSort
    (sortSlice : List Card → (List Card → Int → Int → Option Bool) → Option (List Card))
    (cards : List Card) :
    SortWith sortSlice Less cards = DefaultSort sortSlice cards ∧
    SortWith sortSlice Less = DefaultSort sortSlice ∧
    New [SortWith sortSlice Less] = New [DefaultSort sortSlice] := by
  have h : SortWith sortSlice Less = DefaultSort sortSlice := by
    funext d
    simp only [SortWith, DefaultSort]
  exact ⟨congrFun h cards, h, by rw [h]⟩

/-- C18: a negative count behaves like zero, without a panic: for `n < 0`, `Jokers(n)(cards)` is
`cards`, as `Jokers(0)(cards)` is, and `Deck(n)(cards)` is empty, as `Deck(0)(cards)` is. -/
theorem negative_counts_behave_like_zero (n : Int) (hn : n < 0) (cards : List Card) :
    Jokers n cards = some cards ∧ Jokers 0 cards = some cards ∧
    Deck n cards = some [] ∧ Deck 0 cards = some [] := by
  have hz : n.toNat = 0 := by omega
  refine ⟨?_, ?_, ?_, ?_⟩
  · rw [Jokers_eq_toNat, hz]; simp
  · rw [Jokers_eq_toNat]; simp
  · rw [Deck_eq, hz]; simp
  · rw [Deck_eq]; simp

theorem negative_counts_behave_like_zero_witness :
    Jokers (-3) [{ Suit := Club, Rank := Nine }] = some [{ Suit := Club, Rank := Nine }] ∧
    Jokers 0 [{ Suit := Club, Rank := Nine }] = some [{ Suit := Club, Rank := Nine }] ∧
    Deck (-3) [{ Suit := Club, Rank := Nine }] = some [] ∧
    Deck 0 [{ Suit := Club, Rank := Nine }] = some [] :=
  negative_counts_behave_like_zero (-3) (by decide) [{ Suit := Club, Rank := Nine }]

theorem New_Jokers_eq (n : Nat) :
    New [Jokers n]
      = some (canonical ++ (List.range n).map (fun j => { Suit := Joker, Rank := j % 256 })) := by
  simp only [New, applyOpts, List.foldl_cons, List.foldl_nil, Option.some_bind, Jokers_eq]

theorem Less_of_getElem? (d : List Card) (i j : Nat) (a b : Card) (hi : d[i]? = some a)
    (hj : d[j]? = some b) :
    Less d (i : Int) (j : Int) = some (decide (absRank a < absRank b)) := by
  simp only [Less, index_natCast, hi, hj]

/-- C19: the King of Hearts and the joker of `Rank` 0 both have the `absRank` 52, so for every
`n ≥ 1` the deck `New(Jokers(n))` holds two different cards, at positions 51 and 52, with the
same `absRank`, which `Less` orders in neither direction; a joker with a `Rank` from 1 to 255 has
an `absRank` above that of every standard card. -/
theorem joker_zero_collides_with_king_of_hearts (n : Nat) (hn : 1 ≤ n) :
    absRank { Suit := Heart, Rank := King } = 52 ∧ absRank { Suit := Joker, Rank := 0 } = 52 ∧
    (∃ d, New [Jokers n] = some d ∧
      d[51]? = some { Suit := Heart, Rank := King } ∧
      d[52]? = some { Suit := Joker, Rank := 0 } ∧
      ({ Suit := Heart, Rank := King } : Card) ≠ { Suit := Joker, Rank := 0 } ∧
      Less d ((51 : Nat) : Int) ((52 : Nat) : Int) = some false ∧
      Less d ((52 : Nat) : Int) ((51 : Nat) : Int) = some false) ∧
    (∀ (r : Nat) (s : Card), 1 ≤ r → r ≤ 255 →
      s.Suit ∈ [Spade, Diamond, Club, Heart] → Ace ≤ s.Rank → s.Rank ≤ King →
      absRank s < absRank { Suit := Joker, Rank := r }) := by
  refine ⟨by decide, by decide, ?_, ?_⟩
  · have h51 : (canonical ++ (List.range n).map
        (fun j => ({ Suit := Joker, Rank := j % 256 } : Card)))[51]?
        = some { Suit := Heart, Rank := King } := by
      rw [List.getElem?_append_left (by rw [canonical_length]; decide)]
      exact canonical_getElem? 3 12 (by decide) (by decide)
    have h52 : (canonical ++ (List.range n).map
        (fun j => ({ Suit := Joker, Rank := j % 256 } : Card)))[52]?
        = some { Suit := Joker, Rank := 0 } := by
      have h := Jokers_getElem? n canonical 0 (by omega)
      rw [canonical_length] at h
      exact h
    refine ⟨_, New_Jokers_eq n, h51, h52, by decide, ?_, ?_⟩
    · rw [Less_of_getElem? _ 51 52 _ _ h51 h52]; decide
    · rw [Less_of_getElem? _ 52 51 _ _ h52 h51]; decide
  · intro r s h1 _ hs hr1 hr13
    simp only [Spade, Diamond, Club, Heart, List.mem_cons, List.mem_singleton,
      List.not_mem_nil, or_false] at hs
    simp only [Ace, King] at hr1 hr13
    rw [absRank_eq, absRank_eq]
    simp only [Joker]
    omega

theorem joker_zero_collides_with_king_of_hearts_witness :
    absRank { Suit := Heart, Rank := King } = 52 ∧ absRank { Suit := Joker, Rank := 0 } = 52 ∧
    (∃ d, New [Jokers (1 : Nat)] = some d ∧
      d[51]? = some { Suit := Heart, Rank := King } ∧
      d[52]? = some { Suit := Joker, Rank := 0 } ∧
      ({ Suit := Heart, Rank := King } : Card) ≠ { Suit := Joker, Rank := 0 } ∧
      Less d ((51 : Nat) : Int) ((52 : Nat) : Int) = some false ∧
      Less d ((52 : Nat) : Int) ((51 : Nat) : Int) = some false) ∧
    (∀ (r : Nat) (s : Card), 1 ≤ r → r ≤ 255 →
      s.Suit ∈ [Spade, Diamond, Club, Heart] → Ace ≤ s.Rank → s.Rank ≤ King →
      absRank s < absRank { Suit := Joker, Rank := r }) :=
  joker_zero_collides_with_king_of_hearts 1 (by decide)

end deck
